import Mathlib

/-!
# Verification of the VictoriaMetrics `metrics` package core

Shallow embedding of the metric data model, the fixed-bucket Prometheus
histogram, the counter, the registry (`Set`), the push-path text transform
`addExtraLabels` and the push-config validation, translated from the Go
source under `src/`.  Go `float64` values are modelled by the inductive
`FloatVal` (NaN, the two infinities and finite rationals); machine
`uint64` arithmetic is modelled by natural numbers reduced mod `2^64`.
Functions that can panic return an `Option`/`Except` error alongside the
(unchanged) state.
-/

/-- Model of a Go `float64`: NaN, the infinities, or a finite value
(modelled as a rational; rounding of float arithmetic is out of scope). -/
inductive FloatVal where
  | nan : FloatVal
  | posInf : FloatVal
  | negInf : FloatVal
  | fin : ℚ → FloatVal
deriving DecidableEq, Repr

namespace FloatVal

/-- `math.IsNaN`. -/
def isNaN : FloatVal → Bool
  | nan => true
  | _ => false

/-- IEEE-754 `<` on floats: every comparison involving NaN is false. -/
def lt : FloatVal → FloatVal → Bool
  | nan, _ => false
  | _, nan => false
  | negInf, negInf => false
  | negInf, _ => true
  | _, negInf => false
  | posInf, _ => false
  | fin _, posInf => true
  | fin a, fin b => decide (a < b)

/-- IEEE-754 `<=` on floats: every comparison involving NaN is false. -/
def le : FloatVal → FloatVal → Bool
  | nan, _ => false
  | _, nan => false
  | negInf, _ => true
  | posInf, posInf => true
  | posInf, _ => false
  | fin _, posInf => true
  | fin _, negInf => false
  | fin a, fin b => decide (a ≤ b)

/-- IEEE-754 addition on the model (exact on finite values). -/
def add : FloatVal → FloatVal → FloatVal
  | nan, _ => nan
  | _, nan => nan
  | posInf, negInf => nan
  | negInf, posInf => nan
  | posInf, _ => posInf
  | _, posInf => posInf
  | negInf, _ => negInf
  | _, negInf => negInf
  | fin a, fin b => fin (a + b)

end FloatVal

/-! ## PrometheusHistogram (src/prometheus_histogram.go) -/

/-- State of a `PrometheusHistogram` (src/prometheus_histogram.go:27-42):
configured upper bounds, per-bucket counters, total count and running sum.
The mutex is not modelled (single-threaded embedding). -/
structure PrometheusHistogram where
  upperBounds : List FloatVal
  buckets : List Nat
  count : Nat
  sum : FloatVal
deriving DecidableEq, Repr

/-- `validateBuckets` (src/prometheus_histogram.go:176-185): panics (false)
on an empty list or when some adjacent pair is not strictly increasing
(the Go comparison `upperBounds[i] >= upperBounds[i+1]` is float `>=`). -/
def validateBuckets (upperBounds : List FloatVal) : Bool :=
  match upperBounds with
  | [] => false
  | _ :: _ => adjacentIncreasing upperBounds
where
  adjacentIncreasing : List FloatVal → Bool
    | [] => true
    | [_] => true
    | a :: b :: rest => !(FloatVal.le b a) && adjacentIncreasing (b :: rest)

/-- `newPrometheusHistogram` (src/prometheus_histogram.go:162-174):
validates the bounds (`none` models the panic), silently drops a trailing
`+Inf` bound, and allocates one zero bucket per remaining bound. -/
def newPrometheusHistogram (upperBounds : List FloatVal) : Option PrometheusHistogram :=
  if validateBuckets upperBounds then
    let ubs := if upperBounds.getLast? = some .posInf then upperBounds.dropLast else upperBounds
    some { upperBounds := ubs, buckets := List.replicate ubs.length 0, count := 0, sum := .fin 0 }
  else none

/-- `PrometheusHistogram.Update` (src/prometheus_histogram.go:59-80):
NaN and negative values are skipped; otherwise the first upper bound with
`v <= ub` (linear scan) is selected, the sum and count are updated, and
the selected bucket (if any) is incremented; `bucketIdx == -1` (no bound
`>= v`) touches only sum and count. -/
def PrometheusHistogram.Update (h : PrometheusHistogram) (v : FloatVal) : PrometheusHistogram :=
  if v.isNaN || FloatVal.lt v (.fin 0) then h
  else
    let bucketIdx := h.upperBounds.findIdx? (fun ub => FloatVal.le v ub)
    let h' : PrometheusHistogram :=
      { h with sum := h.sum.add v, count := h.count + 1 }
    match bucketIdx with
    | none => h'
    | some i => { h' with buckets := h'.buckets.set i (h'.buckets.getD i 0 + 1) }

/-- `PrometheusHistogram.Merge` (src/prometheus_histogram.go:83-96): adds
`src`'s sum and count into `h`; the per-bucket counters are not merged
(the body ends in a `TODO: implement actual sum`).  The pair returned is
(updated `h`, `src` as the method leaves it). -/
def PrometheusHistogram.Merge (h src : PrometheusHistogram) :
    PrometheusHistogram × PrometheusHistogram :=
  ({ h with sum := h.sum.add src.sum, count := h.count + src.count }, src)

/-- One line of the serialized form of a `PrometheusHistogram`
(src/prometheus_histogram.go:187-217), abstracting the textual rendering:
a `le="<ub>"` bucket line with its cumulative count, the `le="+Inf"` line,
the `_sum` line (either `%d`-rendered from an `int64` or `%g`-rendered),
and the `_count` line. -/
inductive PromLine where
  | bucket (ub : FloatVal) (cum : Nat)
  | bucketInf (c : Nat)
  | sumInt (n : Int)
  | sumG (v : FloatVal)
  | countLine (c : Nat)
deriving DecidableEq, Repr

/-- The cumulative/count payload of a serialized line (0 for `_sum`). -/
def PromLine.cumOf : PromLine → Nat
  | .bucket _ c => c
  | .bucketInf c => c
  | .countLine c => c
  | _ => 0

/-- The Go test `float64(int64(sum)) == sum` deciding `%d` vs `%g`
rendering of `_sum`: true exactly for finite integral values that
round-trip through `int64` (modelled as integrality within the `int64`
range). Returns the `int64` used for rendering. -/
def sumAsInt64 : FloatVal → Option Int
  | .fin q => if q.den = 1 ∧ -(2 ^ 63) ≤ q.num ∧ q.num < 2 ^ 63 then some q.num else none
  | _ => none

/-- The bucket lines of `marshalTo`: one per upper bound, carrying the
running cumulative sum of the bucket counters. -/
def bucketLinesFrom : List FloatVal → List Nat → Nat → List PromLine
  | [], _, _ => []
  | ub :: ubs, bs, acc =>
    let c := acc + bs.headD 0
    .bucket ub c :: bucketLinesFrom ubs bs.tail c

/-- `PrometheusHistogram.marshalTo` (src/prometheus_histogram.go:187-217):
nothing is emitted when `count == 0`; otherwise one cumulative line per
upper bound, the `le="+Inf"` line with the total count, `_sum` (integer
rendering when the sum round-trips through `int64`, `%g` otherwise) and
`_count`. -/
def PrometheusHistogram.marshalTo (h : PrometheusHistogram) : List PromLine :=
  if h.count = 0 then []
  else
    bucketLinesFrom h.upperBounds h.buckets 0 ++
      [.bucketInf h.count,
       (match sumAsInt64 h.sum with
        | some n => .sumInt n
        | none => .sumG h.sum),
       .countLine h.count]

/-- Totals of the per-bucket counters. -/
def PrometheusHistogram.bucketTotal (h : PrometheusHistogram) : Nat :=
  h.buckets.sum

/-- Well-formedness established by construction: one bucket counter per
configured upper bound. -/
def PrometheusHistogram.wf (h : PrometheusHistogram) : Prop :=
  h.buckets.length = h.upperBounds.length

theorem newPrometheusHistogram_wf (ubs : List FloatVal) (h : PrometheusHistogram)
    (hn : newPrometheusHistogram ubs = some h) : h.wf := by
  unfold newPrometheusHistogram at hn
  by_cases hv : validateBuckets ubs = true
  · simp [hv] at hn
    subst hn
    simp [PrometheusHistogram.wf]
  · simp [hv] at hn

theorem update_wf (h : PrometheusHistogram) (v : FloatVal) (hw : h.wf) :
    (h.Update v).wf := by
  unfold PrometheusHistogram.Update
  by_cases hskip : (v.isNaN || FloatVal.lt v (.fin 0)) = true
  · simp [hskip, hw]
  · simp only [Bool.not_eq_true] at hskip
    simp only [hskip]
    cases hfi : h.upperBounds.findIdx? (fun ub => FloatVal.le v ub) with
    | none => simpa [PrometheusHistogram.wf] using hw
    | some i => simpa [PrometheusHistogram.wf] using hw

/-! ### Helper lemmas on `List.findIdx?` (first index satisfying a predicate) -/

theorem findIdx?_spec_some {α : Type} (p : α → Bool) (l : List α) (d : α) (i : Nat)
    (hi : i < l.length) (hp : p (l.getD i d) = true)
    (hmin : ∀ j, j < i → p (l.getD j d) = false) :
    l.findIdx? p = some i := by
  induction l generalizing i with
  | nil => simp at hi
  | cons a t ih =>
    cases i with
    | zero =>
      simp only [List.getD_cons_zero] at hp
      simp [List.findIdx?_cons, hp]
    | succ n =>
      have h0 : p a = false := by
        have := hmin 0 (Nat.succ_pos n)
        simpa using this
      have hi' : n < t.length := by simpa using hi
      have hp' : p (t.getD n d) = true := by simpa using hp
      have hmin' : ∀ j, j < n → p (t.getD j d) = false := by
        intro j hj
        have := hmin (j + 1) (by omega)
        simpa using this
      simp [List.findIdx?_cons, h0, ih n hi' hp' hmin']

theorem findIdx?_spec_none {α : Type} (p : α → Bool) (l : List α) (d : α)
    (hall : ∀ j, j < l.length → p (l.getD j d) = false) :
    l.findIdx? p = none := by
  induction l with
  | nil => simp
  | cons a t ih =>
    have h0 : p a = false := by simpa using hall 0 (Nat.succ_pos _)
    have hall' : ∀ j, j < t.length → p (t.getD j d) = false := by
      intro j hj
      have := hall (j + 1) (by simpa using Nat.succ_lt_succ hj)
      simpa using this
    simp [List.findIdx?_cons, h0, ih hall']

theorem findIdx?_lt_length {α : Type} (p : α → Bool) (l : List α) (i : Nat)
    (h : l.findIdx? p = some i) : i < l.length := by
  induction l generalizing i with
  | nil => simp at h
  | cons a t ih =>
    rw [List.findIdx?_cons] at h
    by_cases hp : p a = true
    · simp [hp] at h
      simp only [List.length_cons]
      omega
    · simp only [Bool.not_eq_true] at hp
      simp [hp] at h
      cases i with
      | zero => simp at h
      | succ n =>
        have : t.findIdx? p = some n := by
          cases h' : t.findIdx? p with
          | none => simp [h'] at h
          | some m => simp [h'] at h; simpa [h] using h'
        have := ih n this
        simpa using Nat.succ_lt_succ this

/-- C4. `PrometheusHistogram.Update(v)` skips NaN and negative values;
otherwise it adds `v` to the sum, increments the count, and increments
exactly the bucket of the first configured bound `>= v`; when every bound
is `< v` only sum and count change. -/
theorem prometheusHistogram_Update_spec (h : PrometheusHistogram) (v : FloatVal)
    (hw : h.wf) :
    (v.isNaN = true ∨ FloatVal.lt v (.fin 0) = true → h.Update v = h) ∧
    (v.isNaN = false → FloatVal.lt v (.fin 0) = false →
      (h.Update v).sum = h.sum.add v ∧
      (h.Update v).count = h.count + 1 ∧
      (h.Update v).upperBounds = h.upperBounds ∧
      (∀ i, i < h.upperBounds.length →
        FloatVal.le v (h.upperBounds.getD i .nan) = true →
        (∀ j, j < i → FloatVal.le v (h.upperBounds.getD j .nan) = false) →
        i < (h.Update v).buckets.length ∧
        (h.Update v).buckets.getD i 0 = h.buckets.getD i 0 + 1 ∧
        (∀ j, j ≠ i → (h.Update v).buckets.getD j 0 = h.buckets.getD j 0)) ∧
      ((∀ i, i < h.upperBounds.length →
          FloatVal.le v (h.upperBounds.getD i .nan) = false) →
        (h.Update v).buckets = h.buckets)) := by
  constructor
  · intro hskip
    unfold PrometheusHistogram.Update
    rcases hskip with hn | hneg
    · simp [hn]
    · simp [hneg]
  · intro hnan hneg
    have hcond : (v.isNaN || FloatVal.lt v (.fin 0)) = false := by
      simp [hnan, hneg]
    refine ⟨?_, ?_, ?_, ?_, ?_⟩
    · unfold PrometheusHistogram.Update
      rw [hcond]
      simp only [Bool.false_eq_true, if_false]
      cases hfi : h.upperBounds.findIdx? (fun ub => FloatVal.le v ub) <;> simp
    · unfold PrometheusHistogram.Update
      rw [hcond]
      simp only [Bool.false_eq_true, if_false]
      cases hfi : h.upperBounds.findIdx? (fun ub => FloatVal.le v ub) <;> simp
    · unfold PrometheusHistogram.Update
      rw [hcond]
      simp only [Bool.false_eq_true, if_false]
      cases hfi : h.upperBounds.findIdx? (fun ub => FloatVal.le v ub) <;> simp
    · intro i hilen hle hmin
      have hfi : h.upperBounds.findIdx? (fun ub => FloatVal.le v ub) = some i :=
        findIdx?_spec_some _ _ FloatVal.nan i hilen hle hmin
      have hib : i < h.buckets.length := by rw [hw]; exact hilen
      have hupd : (h.Update v).buckets = h.buckets.set i (h.buckets.getD i 0 + 1) := by
        unfold PrometheusHistogram.Update
        rw [hcond]
        simp only [Bool.false_eq_true, if_false, hfi]
      refine ⟨?_, ?_, ?_⟩
      · rw [hupd]
        simpa using hib
      · rw [hupd]
        simp [List.getD]
        rw [List.getElem?_set_eq_of_lt _ hib]
        simp [List.getD, List.getElem?_eq_getElem hib]
      · intro j hj
        rw [hupd]
        simp [List.getD]
        rw [List.getElem?_set_ne]
        omega
    · intro hnone
      have hfi : h.upperBounds.findIdx? (fun ub => FloatVal.le v ub) = none :=
        findIdx?_spec_none _ _ FloatVal.nan hnone
      unfold PrometheusHistogram.Update
      rw [hcond]
      simp only [Bool.false_eq_true, if_false, hfi]

/-- Closed witness for `prometheusHistogram_Update_spec`: a histogram with
bounds `[1, 5]` after `Update 3` has incremented exactly the second
bucket. -/
theorem prometheusHistogram_Update_spec_witness :
    (PrometheusHistogram.mk [.fin 1, .fin 5] [0, 0] 0 (.fin 0)).wf ∧
    ((PrometheusHistogram.mk [.fin 1, .fin 5] [0, 0] 0 (.fin 0)).Update
        (.fin 3)).buckets.getD 1 0 = 1 := by
  have hw : (PrometheusHistogram.mk [.fin 1, .fin 5] [0, 0] 0 (.fin 0)).wf := by
    simp [PrometheusHistogram.wf]
  refine ⟨hw, ?_⟩
  have hs := (prometheusHistogram_Update_spec
    (PrometheusHistogram.mk [.fin 1, .fin 5] [0, 0] 0 (.fin 0)) (.fin 3) hw).2
    (by decide) (by decide)
  have h1 := (hs.2.2.2.1 1 (by decide) (by decide)
    (by intro j hj; interval_cases j <;> decide)).2.1
  simpa using h1

/-- C10. `PrometheusHistogram.Merge(src)` adds `src`'s sum and count into
`h` but leaves `h`'s bucket counters (and `src` entirely) unchanged; hence
after merging a `src` with accepted observations, the per-bucket totals of
`h` no longer account for the merged count. -/
theorem prometheusHistogram_Merge_frame (h src : PrometheusHistogram) :
    (h.Merge src).1.buckets = h.buckets ∧
    (h.Merge src).1.upperBounds = h.upperBounds ∧
    (h.Merge src).1.sum = h.sum.add src.sum ∧
    (h.Merge src).1.count = h.count + src.count ∧
    (h.Merge src).2 = src ∧
    (h.Merge src).1.bucketTotal = h.bucketTotal ∧
    (0 < src.count → h.bucketTotal = h.count →
      (h.Merge src).1.bucketTotal < (h.Merge src).1.count) := by
  refine ⟨rfl, rfl, rfl, rfl, rfl, rfl, ?_⟩
  intro hsrc hacct
  show h.buckets.sum < h.count + src.count
  simp only [PrometheusHistogram.bucketTotal] at hacct
  omega

/-- Closed witness for `prometheusHistogram_Merge_frame`: merging a
one-observation `src` into an `h` whose single bucket accounts for its
single observation leaves the bucket behind the merged count. -/
theorem prometheusHistogram_Merge_frame_witness :
    ((PrometheusHistogram.mk [.fin 1] [1] 1 (.fin 1)).Merge
      (PrometheusHistogram.mk [.fin 1] [1] 1 (.fin 1))).1.bucketTotal <
    ((PrometheusHistogram.mk [.fin 1] [1] 1 (.fin 1)).Merge
      (PrometheusHistogram.mk [.fin 1] [1] 1 (.fin 1))).1.count :=
  (prometheusHistogram_Merge_frame _ _).2.2.2.2.2.2 (by decide) (by decide)

/-! ### Serialization structure (C5) -/

theorem bucketLinesFrom_length (ubs : List FloatVal) (bs : List Nat) (acc : Nat) :
    (bucketLinesFrom ubs bs acc).length = ubs.length := by
  induction ubs generalizing bs acc with
  | nil => simp [bucketLinesFrom]
  | cons ub rest ih => simp [bucketLinesFrom, ih]

theorem bucketLinesFrom_getD (ubs : List FloatVal) (bs : List Nat) (acc : Nat)
    (i : Nat) (hi : i < ubs.length) :
    (bucketLinesFrom ubs bs acc).getD i (.countLine 0) =
      .bucket (ubs.getD i .nan) (acc + (bs.take (i + 1)).sum) := by
  induction ubs generalizing bs acc i with
  | nil => simp at hi
  | cons ub rest ih =>
    cases i with
    | zero =>
      cases bs with
      | nil => simp [bucketLinesFrom]
      | cons b rb => simp [bucketLinesFrom]
    | succ n =>
      have hn : n < rest.length := by simpa using hi
      have step := ih bs.tail (acc + bs.headD 0) n hn
      cases bs with
      | nil =>
        simp only [bucketLinesFrom, List.getD_cons_succ, List.tail_nil, List.headD_nil] at step ⊢
        simpa using step
      | cons b rb =>
        simp only [bucketLinesFrom, List.getD_cons_succ, List.tail_cons, List.headD_cons] at step ⊢
        rw [step]
        simp [List.take_succ_cons, Nat.add_assoc]

theorem sum_take_mono (bs : List Nat) (i j : Nat) (hij : i ≤ j) :
    (bs.take i).sum ≤ (bs.take j).sum := by
  induction bs generalizing i j with
  | nil => simp
  | cons b rb ih =>
    cases i with
    | zero => simp
    | succ n =>
      cases j with
      | zero => omega
      | succ m =>
        simp only [List.take_succ_cons, List.sum_cons]
        exact Nat.add_le_add_left (ih n m (by omega)) b

/-- C5. On a histogram reached by `Update` calls from a freshly
constructed `PrometheusHistogram` with at least one accepted observation,
`marshalTo` emits one cumulative (hence non-decreasing) line per
configured upper bound, then the `le="+Inf"` line carrying the total
count, then `_sum` (integer-rendered exactly when the sum round-trips
through `int64`, `%g` otherwise) and `_count` carrying the count. -/
theorem prometheusHistogram_marshal_structure
    (ubs vs : List FloatVal) (h0 h : PrometheusHistogram)
    (hnew : newPrometheusHistogram ubs = some h0)
    (hrun : h = vs.foldl PrometheusHistogram.Update h0)
    (hc : 0 < h.count) :
    ∃ bl sline,
      h.marshalTo = bl ++ [.bucketInf h.count, sline, .countLine h.count] ∧
      bl.length = h.upperBounds.length ∧
      (∀ i, i < bl.length →
        bl.getD i (.countLine 0) =
          .bucket (h.upperBounds.getD i .nan) ((h.buckets.take (i + 1)).sum)) ∧
      (∀ i j, i ≤ j → j < bl.length →
        (bl.getD i (.countLine 0)).cumOf ≤ (bl.getD j (.countLine 0)).cumOf) ∧
      ((∃ n, sumAsInt64 h.sum = some n ∧ sline = .sumInt n) ∨
        (sumAsInt64 h.sum = none ∧ sline = .sumG h.sum)) := by
  refine ⟨bucketLinesFrom h.upperBounds h.buckets 0,
    (match sumAsInt64 h.sum with
     | some n => .sumInt n
     | none => .sumG h.sum), ?_, ?_, ?_, ?_, ?_⟩
  · unfold PrometheusHistogram.marshalTo
    have : ¬ h.count = 0 := by omega
    simp [this]
  · exact bucketLinesFrom_length _ _ _
  · intro i hi
    rw [bucketLinesFrom_length] at hi
    simpa using bucketLinesFrom_getD h.upperBounds h.buckets 0 i hi
  · intro i j hij hj
    rw [bucketLinesFrom_length] at hj
    have hi : i < h.upperBounds.length := by omega
    rw [bucketLinesFrom_getD h.upperBounds h.buckets 0 i hi,
      bucketLinesFrom_getD h.upperBounds h.buckets 0 j hj]
    simpa [PromLine.cumOf] using sum_take_mono h.buckets (i + 1) (j + 1) (by omega)
  · cases hs : sumAsInt64 h.sum with
    | none => exact Or.inr ⟨rfl, by simp⟩
    | some n => exact Or.inl ⟨n, rfl, by simp⟩

/-- Closed witness for `prometheusHistogram_marshal_structure`: bounds
`[1, 2]`, one observation `1`. -/
theorem prometheusHistogram_marshal_structure_witness :
    ∃ bl sline,
      (PrometheusHistogram.mk [.fin 1, .fin 2] [1, 0] 1 (.fin 1)).marshalTo =
        bl ++ [.bucketInf 1, sline, .countLine 1] ∧
      bl.length = 2 ∧
      (∀ i, i < bl.length →
        bl.getD i (.countLine 0) =
          .bucket (([FloatVal.fin 1, .fin 2]).getD i .nan) ((([1, 0] : List Nat).take (i + 1)).sum)) ∧
      (∀ i j, i ≤ j → j < bl.length →
        (bl.getD i (.countLine 0)).cumOf ≤ (bl.getD j (.countLine 0)).cumOf) ∧
      ((∃ n, sumAsInt64 (.fin 1) = some n ∧ sline = .sumInt n) ∨
        (sumAsInt64 (.fin 1) = none ∧ sline = .sumG (.fin 1))) := by
  have hrun : (PrometheusHistogram.mk [.fin 1, .fin 2] [1, 0] 1 (.fin 1)) =
      List.foldl PrometheusHistogram.Update
        (PrometheusHistogram.mk [.fin 1, .fin 2] [0, 0] 0 (.fin 0)) [.fin 1] := by
    simp only [List.foldl]
    unfold PrometheusHistogram.Update
    norm_num [FloatVal.isNaN, FloatVal.lt, FloatVal.le, FloatVal.add, List.findIdx?_cons]
  have := prometheusHistogram_marshal_structure [.fin 1, .fin 2] [.fin 1]
    (PrometheusHistogram.mk [.fin 1, .fin 2] [0, 0] 0 (.fin 0))
    (PrometheusHistogram.mk [.fin 1, .fin 2] [1, 0] 1 (.fin 1))
    (by decide) hrun (by decide)
  simpa using this

/-! ## Counter (doc.go embedded in src/prometheus_histogram_example_test.go:79-152) -/

/-- `2^64`, the modulus of Go `uint64` arithmetic. -/
def U64 : Nat := 18446744073709551616

/-- `Counter` (src/prometheus_histogram_example_test.go:82-84): one
`uint64` word, modelled as a natural number below `2^64`. -/
structure Counter where
  n : Nat
deriving DecidableEq, Repr

namespace Counter

/-- `Counter.Inc`: `atomic.AddUint64(&c.n, 1)`. -/
def Inc (c : Counter) : Counter := ⟨(c.n + 1) % U64⟩

/-- `Counter.Dec`: `atomic.AddUint64(&c.n, ^uint64(0))`, i.e. adding
`2^64 - 1`, the two's-complement encoding of `-1`. -/
def Dec (c : Counter) : Counter := ⟨(c.n + (U64 - 1)) % U64⟩

/-- `Counter.Add(n int)`: `atomic.AddUint64(&c.n, uint64(n))`; the Go
conversion `uint64(n)` is the two's-complement reduction `n mod 2^64`. -/
def Add (c : Counter) (k : Int) : Counter := ⟨(c.n + (k % (U64 : Int)).toNat) % U64⟩

/-- `Counter.Set(n uint64)`: `atomic.StoreUint64(&c.n, n)` (the argument
is a `uint64`, modelled by reducing mod `2^64`). -/
def Set (c : Counter) (v : Nat) : Counter := ⟨v % U64⟩

/-- `Counter.Get`: `atomic.LoadUint64(&c.n)`. -/
def Get (c : Counter) : Nat := c.n

end Counter

/-- One rendered exposition line: `%d` (integer) or `%g` (float)
formatting of the single value. -/
inductive ExpoLine where
  | intLine (v : Nat)
  | gLine (v : FloatVal)
deriving DecidableEq, Repr

/-- `Counter.marshalTo` (src/prometheus_histogram_example_test.go:148-152):
always exactly one `%d` line. -/
def Counter.marshalTo (c : Counter) : List ExpoLine := [.intLine c.Get]

/-- `gauge.marshalTo` (src/prometheus_histogram_example_test.go:56-59):
always exactly one `%g` line; `v` is the value the gauge's callback
returns at serialization time. -/
def gaugeMarshalTo (v : FloatVal) : List ExpoLine := [.gLine v]

/-- `quantileValue.marshalTo` (src/unnamed/part_016:113-120): reads the
cached quantile value and writes nothing when it is NaN, else one `%g`
line. -/
def quantileValueMarshalTo (cached : FloatVal) : List ExpoLine :=
  if cached.isNaN then [] else [.gLine cached]

/-- `Summary.marshalTo` (src/unnamed/part_016:96-100): writes nothing
under the summary's own name (it only refreshes the cached quantiles,
which the `quantileValue` sub-metrics render). -/
def summaryMarshalTo : List ExpoLine := []

/-! ## Counter sequence semantics (C7) -/

/-- One mutation of a `Counter`. -/
inductive CounterOp where
  | inc : CounterOp
  | dec : CounterOp
  | add (k : Int) : CounterOp
  | set (v : Nat) : CounterOp
deriving DecidableEq, Repr

/-- Dispatch of one op to the source operations. -/
def Counter.applyOp (c : Counter) : CounterOp → Counter
  | .inc => c.Inc
  | .dec => c.Dec
  | .add k => c.Add k
  | .set v => c.Set v

/-- A whole op sequence applied left to right. -/
def Counter.run (c : Counter) (ops : List CounterOp) : Counter :=
  ops.foldl Counter.applyOp c

/-- The spec-side net effect of an op sequence, read off the spec's words:
`Set` replaces the current value; `Inc`, `Dec` and `Add(n)` adjust it by
`+1`, `-1` and `+n` respectively (as an unbounded integer). -/
def netEffect (acc : Int) : CounterOp → Int
  | .inc => acc + 1
  | .dec => acc - 1
  | .add k => acc + k
  | .set v => (v : Int)

theorem counter_run_net (ops : List CounterOp) :
    ∀ (z : Int) (c : Counter), c.n = (z % (U64 : Int)).toNat →
      (c.run ops).n = ((ops.foldl netEffect z) % (U64 : Int)).toNat := by
  induction ops with
  | nil =>
    intro z c hc
    simpa [Counter.run] using hc
  | cons op rest ih =>
    intro z c hc
    have hstep : (c.run (op :: rest)) = (c.applyOp op).run rest := by
      simp [Counter.run]
    rw [hstep]
    have hfold : (op :: rest).foldl netEffect z = rest.foldl netEffect (netEffect z op) := by
      simp
    rw [hfold]
    apply ih
    cases op with
    | inc =>
      simp only [Counter.applyOp, Counter.Inc, hc, netEffect, U64]
      omega
    | dec =>
      simp only [Counter.applyOp, Counter.Dec, hc, netEffect, U64]
      omega
    | add k =>
      simp only [Counter.applyOp, Counter.Add, hc, netEffect, U64]
      omega
    | set v =>
      simp only [Counter.applyOp, Counter.Set, netEffect, U64]
      omega

/-- C7. For any op sequence on a fresh `Counter`, `Get()` returns exactly
the left-to-right net effect of the sequence (`Set` replaces, `Inc`/`Dec`/
`Add(n)` adjust by `+1`/`-1`/`+n`), in the counter's `uint64` arithmetic
(i.e. reduced mod `2^64`). -/
theorem counter_ops_net_effect (ops : List CounterOp) :
    ((Counter.mk 0).run ops).Get = ((ops.foldl netEffect 0) % (U64 : Int)).toNat :=
  counter_run_net ops 0 (Counter.mk 0) (by simp)

/-! ## Log-bucket Histogram (C1); its implementation is absent from src/ -/

/-- Modelled from the spec: the log-bucket `Histogram` type
(`histogram.go`) is absent from `src/` — only its tests
(src/histogram_test.go) are present.  Per spec section 4.2 the state is a
fixed array of bucket counters plus the running `_sum` and `_count`. -/
structure Histogram where
  buckets : List Nat
  sum : FloatVal
  count : Nat
deriving DecidableEq, Repr

/-- Modelled from the spec: `Histogram.Update` (`histogram.go` is absent
from `src/`).  The classification of an accepted value into a dense
bucket index (spec section 4.2: zero/underflow/overflow buckets, then a
decade/offset packing) is abstracted as the parameter `bidx`.  NaN values
are ignored per the spec; the behaviour on negative values is pinned by
the repository's own test `TestHistogramUpdateNegativeValue`
(src/histogram_test.go:12-17), which requires `Update(-123)` to panic
(modelled as `some` message with the state untouched) — contradicting the
spec's `no-op` wording.  An accepted value increments its bucket and
updates `_sum` and `_count`. -/
def Histogram.Update (bidx : FloatVal → Nat) (h : Histogram) (v : FloatVal) :
    Option String × Histogram :=
  if v.isNaN then (none, h)
  else if FloatVal.lt v (.fin 0) then (some "negative value", h)
  else (none,
    { buckets := h.buckets.set (bidx v) (h.buckets.getD (bidx v) 0 + 1),
      sum := h.sum.add v,
      count := h.count + 1 })

/-- C1 counterexample: `Update(-123)` on a log-bucket histogram does
panic (the test `TestHistogramUpdateNegativeValue` requires it), so the
claim's `it does not panic` fails at `v = -123`. -/
theorem histogram_update_negative_panics_cex :
    (Histogram.Update (fun _ => 0) (Histogram.mk [0] (.fin 0) 0) (.fin (-123))).1 ≠ none := by
  decide

/-- C1 (amended). For every negative value, `Update` panics and leaves
every bucket counter, the running `_sum` and the `_count` unchanged; NaN
values are ignored as a no-op. -/
theorem histogram_update_negative_nan (bidx : FloatVal → Nat) (h : Histogram) :
    (∀ v, FloatVal.lt v (.fin 0) = true →
      (Histogram.Update bidx h v).1 = some "negative value" ∧
      (Histogram.Update bidx h v).2 = h) ∧
    Histogram.Update bidx h .nan = (none, h) := by
  constructor
  · intro v hneg
    have hnan : v.isNaN = false := by
      cases v with
      | nan => simp [FloatVal.lt] at hneg
      | posInf => rfl
      | negInf => rfl
      | fin q => rfl
    unfold Histogram.Update
    rw [hnan, hneg]
    exact ⟨rfl, rfl⟩
  · rfl

/-- Closed witness for `histogram_update_negative_nan` at `v = -1/2`. -/
theorem histogram_update_negative_nan_witness :
    (Histogram.Update (fun _ => 0) (Histogram.mk [0] (.fin 0) 0) (.fin (-1/2))).1 =
      some "negative value" ∧
    (Histogram.Update (fun _ => 0) (Histogram.mk [0] (.fin 0) 0) (.fin (-1/2))).2 =
      Histogram.mk [0] (.fin 0) 0 :=
  (histogram_update_negative_nan (fun _ => 0) (Histogram.mk [0] (.fin 0) 0)).1
    (.fin (-1/2)) (by norm_num [FloatVal.lt])

/-- C6. Zero-observation invisibility vs. always-visible scalars: a
`PrometheusHistogram` with `count == 0` marshals to nothing; a summary
quantile sub-metric marshals to nothing while its cached value is NaN
(and the summary's own name never emits lines); a counter or gauge always
yields exactly one line. -/
theorem zero_observation_visibility :
    (∀ h : PrometheusHistogram, h.count = 0 → h.marshalTo = []) ∧
    (∀ v : FloatVal, v.isNaN = true → quantileValueMarshalTo v = []) ∧
    summaryMarshalTo = [] ∧
    (∀ c : Counter, c.marshalTo.length = 1) ∧
    (∀ v : FloatVal, (gaugeMarshalTo v).length = 1) := by
  refine ⟨?_, ?_, rfl, ?_, ?_⟩
  · intro h hc
    simp [PrometheusHistogram.marshalTo, hc]
  · intro v hv
    simp [quantileValueMarshalTo, hv]
  · intro c
    rfl
  · intro v
    rfl

/-- Closed witness for `zero_observation_visibility`. -/
theorem zero_observation_visibility_witness :
    (PrometheusHistogram.mk [.fin 1] [0] 0 (.fin 0)).marshalTo = [] ∧
    quantileValueMarshalTo .nan = [] ∧
    (Counter.mk 5).marshalTo.length = 1 ∧
    (gaugeMarshalTo (.fin 0)).length = 1 := by
  obtain ⟨h1, h2, _, h4, h5⟩ := zero_observation_visibility
  exact ⟨h1 _ rfl, h2 _ rfl, h4 _, h5 _⟩

/-! ## Metric-name validator (validator.go is absent from src/) -/

/-- The `{` character (written via its code point). -/
def lbraceChar : Char := Char.ofNat 123

/-- The `}` character (written via its code point). -/
def rbraceChar : Char := Char.ofNat 125

/-- First character of a base name: `[a-zA-Z_:]` (spec section 3). -/
def isBaseFirst (c : Char) : Bool := c.isAlpha || c = '_' || c = ':'

/-- Later characters of a base name: `[a-zA-Z0-9_:.]` (spec section 3). -/
def isBaseRest (c : Char) : Bool := c.isAlphanum || c = '_' || c = ':' || c = '.'

/-- First character of a label key (a non-empty identifier, spec section 3). -/
def isKeyFirst (c : Char) : Bool := c.isAlpha || c = '_'

/-- Later characters of a label key. -/
def isKeyRest (c : Char) : Bool := c.isAlphanum || c = '_'

/-- Drop the longest run of characters satisfying `p`. -/
def scanWhile (p : Char → Bool) : List Char → List Char
  | [] => []
  | c :: cs => if p c then scanWhile p cs else c :: cs

/-- Consume a double-quoted label value after its opening quote, with
backslash escaping; returns the characters after the closing quote. -/
def scanValue : List Char → Option (List Char)
  | [] => none
  | c :: cs =>
    if c = '"' then some cs
    else if c = '\\' then
      match cs with
      | [] => none
      | _ :: cs2 => scanValue cs2
    else scanValue cs

/-- Consume one `key="value"` pair. -/
def scanPair (cs : List Char) : Option (List Char) :=
  match cs with
  | [] => none
  | c :: rest =>
    if isKeyFirst c then
      match scanWhile isKeyRest rest with
      | '=' :: '"' :: cs2 => scanValue cs2
      | _ => none
    else none

/-- Consume a non-empty comma-separated pair list (fuel-bounded; the
input length is always enough fuel since every pair is non-empty). -/
def scanPairs : Nat → List Char → Option (List Char)
  | 0, _ => none
  | fuel + 1, cs =>
    match scanPair cs with
    | none => none
    | some rest =>
      match rest with
      | ',' :: rest2 => scanPairs fuel rest2
      | _ => some rest

/-- Modelled from the spec: `validateMetric` (`validator.go` is absent
from `src/`; only src/validator_test.go is present).  Follows the
MetricName grammar of spec section 3: `base` matching
`[a-zA-Z_:][a-zA-Z0-9_:.]*`, optionally followed by `{}` or by
`{k1="v1",...}` with identifier keys and `\"`-escaped quoted values, with
no whitespace outside quoted values and nothing after the closing
brace. -/
def validateMetric (s : String) : Bool :=
  match s.toList with
  | [] => false
  | c :: cs =>
    if isBaseFirst c then
      match scanWhile isBaseRest cs with
      | [] => true
      | c2 :: rest2 =>
        if c2 = lbraceChar then
          match rest2 with
          | [] => false
          | c3 :: rest3 =>
            if c3 = rbraceChar then rest3.isEmpty
            else
              match scanPairs rest2.length rest2 with
              | some (c4 :: rest4) => c4 = rbraceChar && rest4.isEmpty
              | _ => false
        else false
    else false

/-- Modelled from the spec: `validateTags` (`validator.go` is absent from
`src/`).  The extra-labels string must be empty or a comma-separated list
of `label="value"` pairs (spec section 7). -/
def validateTags (s : String) : Bool :=
  s.isEmpty ||
    (match scanPairs s.length s.toList with
     | some [] => true
     | _ => false)

/-! ## Registry (Set) (src/set.go) -/

/-- The metric variants a registry can hold. -/
inductive MetricKind where
  | counter
  | gauge
  | summary
  | histogram
  | prometheusHistogram
deriving DecidableEq, Repr

/-- A live metric instance: `id` models the Go pointer identity (each
allocation is distinct), `val` the zero-initialized scalar payload. -/
structure MetricInst where
  id : Nat
  kind : MetricKind
  val : Nat
deriving DecidableEq, Repr

/-- `namedMetric` (src/metrics.go:21-24). -/
structure NamedMetric where
  name : String
  metric : MetricInst
deriving DecidableEq, Repr

/-- `Set` (src/set.go:16-21): the name→metric map `m` (association list)
and the append-ordered list `a`; `nextId` models the allocator handing
out fresh instance identities. -/
structure SetState where
  m : List (String × MetricInst)
  a : List NamedMetric
  nextId : Nat
deriving DecidableEq, Repr

/-- `NewSet` (src/set.go:24-28). -/
def NewSet : SetState := ⟨[], [], 0⟩

/-- Map lookup `s.m[name]`. -/
def findMetric : List (String × MetricInst) → String → Option MetricInst
  | [], _ => none
  | (k, v) :: rest, n => if k = n then some v else findMetric rest n

/-- A registry panic, carrying the claim-relevant data. -/
inductive RegError where
  | invalidName
  | alreadyRegistered
  | typeMismatch (actual requested : MetricKind)
deriving DecidableEq, Repr

/-- `Set.registerMetric` (src/set.go:298-316): validates the name
(panicking on an invalid one), then installs the metric in both `m` and
`a` unless the name is taken, in which case it panics after the critical
section without mutating either. -/
def SetState.registerMetric (s : SetState) (name : String) (kind : MetricKind) :
    Option RegError × SetState :=
  if !validateMetric name then (some .invalidName, s)
  else
    match findMetric s.m name with
    | some _ => (some .alreadyRegistered, s)
    | none =>
      let inst : MetricInst := ⟨s.nextId, kind, 0⟩
      (none, ⟨(name, inst) :: s.m, s.a ++ [⟨name, inst⟩], s.nextId + 1⟩)

/-- `Set.NewCounter` (src/set.go:58-62): allocates a fresh zero `Counter`
and registers it. -/
def SetState.NewCounter (s : SetState) (name : String) : Option RegError × SetState :=
  s.registerMetric name .counter

/-- `Set.GetOrCreateCounter` (src/set.go:77-104), sequentialized: look
the name up; on a hit return the registered instance with the state
unchanged provided it is a `Counter` (otherwise panic carrying the actual
and the requested variants); on a miss validate the name (panicking when
invalid), then install and return a fresh zero-valued `Counter`. -/
def SetState.GetOrCreateCounter (s : SetState) (name : String) :
    Except RegError (MetricInst × SetState) :=
  match findMetric s.m name with
  | some nm =>
    if nm.kind = .counter then .ok (nm, s)
    else .error (.typeMismatch nm.kind .counter)
  | none =>
    if !validateMetric name then .error .invalidName
    else
      let inst : MetricInst := ⟨s.nextId, .counter, 0⟩
      .ok (inst, ⟨(name, inst) :: s.m, s.a ++ [⟨name, inst⟩], s.nextId + 1⟩)

/-- Modelled from the spec: `Set.UnregisterMetric` is absent from `src/`
(only the src/metrics.go wrapper and the tests in src/set_test.go are
present).  Per the spec (section 4.5) it removes the entry from both the
map and the ordered list and returns whether it was present. -/
def SetState.UnregisterMetric (s : SetState) (name : String) : Bool × SetState :=
  match findMetric s.m name with
  | none => (false, s)
  | some _ =>
    (true, ⟨s.m.filter (fun p => !(p.1 == name)),
            s.a.filter (fun x => !(x.name == name)), s.nextId⟩)

theorem findMetric_filter_self (l : List (String × MetricInst)) (name : String) :
    findMetric (l.filter (fun p => !(p.1 == name))) name = none := by
  induction l with
  | nil => simp [findMetric]
  | cons p rest ih =>
    by_cases hk : p.1 = name
    · simp [List.filter_cons, hk, ih]
    · have hb : (!(p.1 == name)) = true := by simp [hk]
      simp only [List.filter_cons, hb, if_true, reduceIte]
      cases p with
      | mk k v =>
        simp only at hk
        simp [findMetric, hk, ih]

/-- C2. `GetOrCreateCounter` on a name already registered as a `Counter`
returns that same instance with the registry unchanged; on a name
registered under another variant it panics carrying the actual and the
requested variants; and any successful call is idempotent (repeated calls
return the identical instance and never install a replacement). -/
theorem getOrCreateCounter_converges (s : SetState) (name : String) :
    (∀ nm, findMetric s.m name = some nm → nm.kind = .counter →
      s.GetOrCreateCounter name = .ok (nm, s)) ∧
    (∀ nm, findMetric s.m name = some nm → nm.kind ≠ .counter →
      s.GetOrCreateCounter name = .error (.typeMismatch nm.kind .counter)) ∧
    (∀ c s1, s.GetOrCreateCounter name = .ok (c, s1) →
      s1.GetOrCreateCounter name = .ok (c, s1)) := by
  refine ⟨?_, ?_, ?_⟩
  · intro nm hfind hkind
    simp [SetState.GetOrCreateCounter, hfind, hkind]
  · intro nm hfind hkind
    simp [SetState.GetOrCreateCounter, hfind, hkind]
  · intro c s1 hok
    unfold SetState.GetOrCreateCounter at hok ⊢
    cases hfind : findMetric s.m name with
    | some nm =>
      rw [hfind] at hok
      by_cases hkind : nm.kind = .counter
      · simp only [hkind, if_true, reduceIte] at hok
        simp only [Except.ok.injEq, Prod.mk.injEq] at hok
        obtain ⟨hc, hs⟩ := hok
        subst hc hs
        rw [hfind]
        simp [hkind]
      · simp [hkind] at hok
    | none =>
      rw [hfind] at hok
      by_cases hval : validateMetric name = true
      · simp only [hval, Bool.not_true, Bool.false_eq_true, if_false,
          Except.ok.injEq, Prod.mk.injEq] at hok
        obtain ⟨hc, hs⟩ := hok
        subst hc
        subst hs
        simp [findMetric]
      · simp [hval] at hok

/-- Closed witness for `getOrCreateCounter_converges`: after registering
`foo` as a counter, `GetOrCreateCounter` returns that instance and the
unchanged registry. -/
theorem getOrCreateCounter_converges_witness :
    ((NewSet.NewCounter "foo").2).GetOrCreateCounter "foo" =
      .ok (⟨0, .counter, 0⟩, (NewSet.NewCounter "foo").2) := by
  have h := (getOrCreateCounter_converges (NewSet.NewCounter "foo").2 "foo").1
  exact h ⟨0, .counter, 0⟩ (by decide) rfl

/-- C3. On a registered name: every `New*` registration panics with the
registry's map and ordered list untouched; `UnregisterMetric` returns
true and removes the entry from both the map and the ordered list; after
which registering the name again succeeds and yields a fresh zero-valued
instance (distinct identity from the old one). -/
theorem register_unregister_reregister (s : SetState) (name : String) (nm : MetricInst)
    (hv : validateMetric name = true)
    (hreg : findMetric s.m name = some nm)
    (hid : nm.id < s.nextId) :
    (∀ kind, s.registerMetric name kind = (some .alreadyRegistered, s)) ∧
    (s.UnregisterMetric name).1 = true ∧
    findMetric (s.UnregisterMetric name).2.m name = none ∧
    (∀ x, x ∈ (s.UnregisterMetric name).2.a → x.name ≠ name) ∧
    (((s.UnregisterMetric name).2.NewCounter name).1 = none) ∧
    (findMetric (((s.UnregisterMetric name).2.NewCounter name).2).m name =
      some ⟨s.nextId, .counter, 0⟩) ∧
    s.nextId ≠ nm.id := by
  have hunreg : s.UnregisterMetric name =
      (true, ⟨s.m.filter (fun p => !(p.1 == name)),
              s.a.filter (fun x => !(x.name == name)), s.nextId⟩) := by
    unfold SetState.UnregisterMetric
    rw [hreg]
  refine ⟨?_, ?_, ?_, ?_, ?_, ?_, ?_⟩
  · intro kind
    unfold SetState.registerMetric
    rw [hv, hreg]
    simp
  · rw [hunreg]
  · rw [hunreg]
    exact findMetric_filter_self s.m name
  · rw [hunreg]
    intro x hx
    simp only [List.mem_filter] at hx
    simpa using hx.2
  · rw [hunreg]
    unfold SetState.NewCounter SetState.registerMetric
    rw [hv]
    simp [findMetric_filter_self s.m name]
  · rw [hunreg]
    unfold SetState.NewCounter SetState.registerMetric
    rw [hv]
    simp [findMetric_filter_self s.m name, findMetric]
  · omega

/-- Closed witness for `register_unregister_reregister` on a registry
holding `foo`. -/
theorem register_unregister_reregister_witness :
    (∀ kind, ((NewSet.NewCounter "foo").2).registerMetric "foo" kind =
      (some .alreadyRegistered, (NewSet.NewCounter "foo").2)) ∧
    (((NewSet.NewCounter "foo").2).UnregisterMetric "foo").1 = true ∧
    findMetric ((((NewSet.NewCounter "foo").2).UnregisterMetric "foo")).2.m "foo" = none ∧
    (∀ x, x ∈ ((((NewSet.NewCounter "foo").2).UnregisterMetric "foo")).2.a → x.name ≠ "foo") ∧
    ((((((NewSet.NewCounter "foo").2).UnregisterMetric "foo")).2.NewCounter "foo").1 = none) ∧
    (findMetric ((((((NewSet.NewCounter "foo").2).UnregisterMetric "foo")).2.NewCounter "foo").2).m "foo" =
      some ⟨(NewSet.NewCounter "foo").2.nextId, .counter, 0⟩) ∧
    (NewSet.NewCounter "foo").2.nextId ≠ 0 :=
  register_unregister_reregister (NewSet.NewCounter "foo").2 "foo" ⟨0, .counter, 0⟩
    (by decide) (by decide) (by decide)

/-! ## addExtraLabels (src/push.go:284-326) (C8) -/

/-- The ASCII whitespace trimmed by Go's `bytes.TrimSpace`. -/
def isGoSpace (c : Char) : Bool :=
  c = ' ' || c = '\t' || c = '\n' || c = Char.ofNat 11 || c = Char.ofNat 12 || c = Char.ofNat 13

/-- Drop leading whitespace. -/
def trimLeft (cs : List Char) : List Char :=
  match cs with
  | [] => []
  | c :: rest => if isGoSpace c then trimLeft rest else c :: rest

/-- `bytes.TrimSpace` (src/push.go:295 trims every line before
classifying it). -/
def trimSpace (cs : List Char) : List Char :=
  (trimLeft (trimLeft cs).reverse).reverse

/-- Split at the first newline (`bytes.IndexByte(src, '\n')`):
(line, rest after the newline; the whole input and `[]` when absent). -/
def takeLine : List Char → List Char × List Char
  | [] => ([], [])
  | c :: cs =>
    if c = '\n' then ([], cs)
    else
      let p := takeLine cs
      (c :: p.1, p.2)

/-- Split at the first occurrence of `ch`: `cs = pre ++ ch :: post`. -/
def splitAtFirst (ch : Char) : List Char → Option (List Char × List Char)
  | [] => none
  | c :: cs =>
    if c = ch then some ([], cs)
    else
      match splitAtFirst ch cs with
      | none => none
      | some (pre, post) => some (c :: pre, post)

/-- Split at the last space (`bytes.LastIndexByte(line, ' ')`):
`cs = pre ++ ' ' :: post` with the space the last one of `cs`. -/
def splitAtLastSpace (cs : List Char) : Option (List Char × List Char) :=
  match splitAtFirst ' ' cs.reverse with
  | none => none
  | some (rpost, rpre) => some (rpre.reverse, rpost.reverse)

/-- The per-line body of the `addExtraLabels` loop (src/push.go:296-323),
acting on the already-trimmed line: blank lines are dropped, `#`-lines
are copied, a line with a `{` has the labels spliced right after it, any
other line gets a fresh `{extraLabels}` group inserted before its last
space; a value-less line panics (`.error`). -/
def processLine (line lbl : List Char) : Except (List Char) (List Char) :=
  if line.isEmpty then .ok []
  else if line.head? = some '#' then .ok (line ++ ['\n'])
  else
    match splitAtFirst lbraceChar line with
    | some (pre, post) =>
      .ok (pre ++ [lbraceChar] ++ lbl ++ [','] ++ post ++ ['\n'])
    | none =>
      match splitAtLastSpace line with
      | some (pre, post) =>
        .ok (pre ++ [lbraceChar] ++ lbl ++ [rbraceChar] ++ (' ' :: post) ++ ['\n'])
      | none => .error line

theorem takeLine_rest_le (cs : List Char) : (takeLine cs).2.length ≤ cs.length := by
  induction cs with
  | nil => simp [takeLine]
  | cons c rest ih =>
    simp only [takeLine]
    by_cases h : c = '\n'
    · simp [h]
    · simp only [h, if_false]
      simp only [List.length_cons]
      omega

/-- `addExtraLabels` (src/push.go:284-326) on character lists: split the
source at newlines, trim each line, process it, concatenate. -/
def addExtraLabelsCore (src lbl : List Char) : Except (List Char) (List Char) :=
  match hsrc : src with
  | [] => .ok []
  | c :: cs =>
    let p := takeLine (c :: cs)
    match processLine (trimSpace p.1) lbl with
    | .error e => .error e
    | .ok out =>
      match addExtraLabelsCore p.2 lbl with
      | .error e => .error e
      | .ok rest => .ok (out ++ rest)
termination_by src.length
decreasing_by
  simp only [takeLine]
  by_cases h : c = '\n'
  · simp [h]
  · simp only [h, if_false]
    have := takeLine_rest_le cs
    simp only [List.length_cons]
    omega

/-- `addExtraLabels` on strings (empty `dst`, as the tests call it). -/
def addExtraLabels (src lbl : String) : Except String String :=
  match addExtraLabelsCore src.toList lbl.toList with
  | .error e => .error (String.mk e)
  | .ok out => .ok (String.mk out)

theorem trimLeft_all_space (cs : List Char) (h : ∀ c ∈ cs, isGoSpace c = true) :
    trimLeft cs = [] := by
  induction cs with
  | nil => simp [trimLeft]
  | cons c rest ih =>
    have hc := h c (by simp)
    simp only [trimLeft, hc, if_true, reduceIte]
    exact ih (fun x hx => h x (by simp [hx]))

theorem trimSpace_all_space (cs : List Char) (h : ∀ c ∈ cs, isGoSpace c = true) :
    trimSpace cs = [] := by
  unfold trimSpace
  rw [trimLeft_all_space cs h]
  simp [trimLeft]

theorem takeLine_mem (cs : List Char) :
    (∀ c ∈ (takeLine cs).1, c ∈ cs) ∧ (∀ c ∈ (takeLine cs).2, c ∈ cs) := by
  induction cs with
  | nil => simp [takeLine]
  | cons c rest ih =>
    simp only [takeLine]
    by_cases h : c = '\n'
    · simp only [h, if_true, reduceIte]
      exact ⟨by simp, fun x hx => by simp [hx]⟩
    · simp only [h, if_false, Bool.false_eq_true, reduceIte]
      constructor
      · intro x hx
        simp only [List.mem_cons] at hx
        rcases hx with hx | hx
        · simp [hx]
        · simp [ih.1 x hx]
      · intro x hx
        simp [ih.2 x hx]

theorem takeLine_rest_lt (c : Char) (cs : List Char) :
    (takeLine (c :: cs)).2.length < (c :: cs).length := by
  simp only [takeLine]
  by_cases h : c = '\n'
  · simp [h]
  · simp only [h, if_false, Bool.false_eq_true, reduceIte]
    have := takeLine_rest_le cs
    simp only [List.length_cons]
    omega

theorem addExtraLabelsCore_blank_aux (n : Nat) : ∀ (src lbl : List Char), src.length ≤ n →
    (∀ c ∈ src, isGoSpace c = true) → addExtraLabelsCore src lbl = .ok [] := by
  induction n with
  | zero =>
    intro src lbl hlen h
    have : src = [] := List.eq_nil_of_length_eq_zero (by omega)
    subst this
    simp [addExtraLabelsCore]
  | succ m ih =>
    intro src lbl hlen h
    cases src with
    | nil => simp [addExtraLabelsCore]
    | cons c cs =>
      rw [addExtraLabelsCore]
      have hline : trimSpace (takeLine (c :: cs)).1 = [] :=
        trimSpace_all_space _ (fun x hx => h x ((takeLine_mem (c :: cs)).1 x hx))
      have hrest : addExtraLabelsCore (takeLine (c :: cs)).2 lbl = .ok [] := by
        apply ih
        · have h1 := takeLine_rest_lt c cs
          simp only [List.length_cons] at h1 hlen
          omega
        · exact fun x hx => h x ((takeLine_mem (c :: cs)).2 x hx)
      simp [hline, processLine, hrest]

theorem addExtraLabelsCore_newline (rest lbl : List Char) :
    addExtraLabelsCore ('\n' :: rest) lbl = addExtraLabelsCore rest lbl := by
  rw [addExtraLabelsCore]
  simp only [takeLine, if_true, reduceIte]
  simp only [trimSpace, trimLeft, List.reverse_nil, processLine, List.isEmpty_nil]
  simp only [if_true, reduceIte]
  cases h : addExtraLabelsCore rest lbl with
  | error e => simp [h]
  | ok r => simp [h]

theorem takeLine_no_newline (cs : List Char) (h : '\n' ∉ cs) : takeLine cs = (cs, []) := by
  induction cs with
  | nil => simp [takeLine]
  | cons c rest ih =>
    have hc : c ≠ '\n' := by intro hc; exact h (by simp [hc])
    have hr : '\n' ∉ rest := by intro hr; exact h (by simp [hr])
    simp [takeLine, hc, ih hr]

theorem addExtraLabelsCore_comment (line lbl : List Char) (hnl : '\n' ∉ line)
    (hh : (trimSpace line).head? = some '#') :
    addExtraLabelsCore line lbl = .ok (trimSpace line ++ ['\n']) := by
  cases line with
  | nil => simp [trimSpace, trimLeft] at hh
  | cons c cs =>
    rw [addExtraLabelsCore]
    rw [takeLine_no_newline _ hnl]
    have hne : (trimSpace (c :: cs)).isEmpty = false := by
      cases htr : trimSpace (c :: cs) with
      | nil => rw [htr] at hh; simp at hh
      | cons a b => simp
    simp only [processLine, hne, Bool.false_eq_true, if_false, reduceIte, hh, if_true]
    simp [addExtraLabelsCore]

/-- C8 counterexample: the line `#a ` begins with `#` but does not pass
through unchanged — `addExtraLabels` trims each line first, so the
trailing space is dropped. -/
theorem addExtraLabels_comment_trim_cex :
    addExtraLabels "#a " "foo=\"bar\"" = .ok "#a\n" ∧ ("#a\n" : String) ≠ "#a \n" := by
  constructor
  · simp [addExtraLabels, addExtraLabelsCore, takeLine, trimSpace, trimLeft, processLine,
      splitAtFirst, splitAtLastSpace, isGoSpace, lbraceChar, rbraceChar]
  · decide

/-- C8 (amended). `addExtraLabels` processes its input line by line,
first trimming surrounding whitespace from every line: the two concrete
rewrites of the claim hold as stated; whitespace-only input (blank lines
included) is dropped entirely; a leading blank line is dropped; and a
newline-free line whose trimmed form begins with `#` passes through in
trimmed form plus a newline. -/
theorem addExtraLabels_amended :
    addExtraLabels "a 123" "foo=\"bar\"" = .ok "a\x7bfoo=\"bar\"\x7d 123\n" ∧
    addExtraLabels "a\x7bb=\"c\"\x7d 1.3" "foo=\"bar\"" =
      .ok "a\x7bfoo=\"bar\",b=\"c\"\x7d 1.3\n" ∧
    (∀ src lbl : List Char, (∀ c ∈ src, isGoSpace c = true) →
      addExtraLabelsCore src lbl = .ok []) ∧
    (∀ rest lbl : List Char,
      addExtraLabelsCore ('\n' :: rest) lbl = addExtraLabelsCore rest lbl) ∧
    (∀ line lbl : List Char, '\n' ∉ line → (trimSpace line).head? = some '#' →
      addExtraLabelsCore line lbl = .ok (trimSpace line ++ ['\n'])) := by
  refine ⟨?_, ?_, ?_, ?_, ?_⟩
  · simp [addExtraLabels, addExtraLabelsCore, takeLine, trimSpace, trimLeft, processLine,
      splitAtFirst, splitAtLastSpace, isGoSpace, lbraceChar, rbraceChar]
  · simp [addExtraLabels, addExtraLabelsCore, takeLine, trimSpace, trimLeft, processLine,
      splitAtFirst, splitAtLastSpace, isGoSpace, lbraceChar, rbraceChar]
  · intro src lbl h
    exact addExtraLabelsCore_blank_aux src.length src lbl (Nat.le_refl _) h
  · exact addExtraLabelsCore_newline
  · exact addExtraLabelsCore_comment

/-- Closed witness for `addExtraLabels_amended` at concrete lines. -/
theorem addExtraLabels_amended_witness :
    addExtraLabelsCore [' ', '\t'] ['x'] = .ok [] ∧
    addExtraLabelsCore ['\n', 'a'] ['x'] = addExtraLabelsCore ['a'] ['x'] ∧
    addExtraLabelsCore ['#', 'b', ' '] ['x'] = .ok (trimSpace ['#', 'b', ' '] ++ ['\n']) := by
  obtain ⟨_, _, h3, h4, h5⟩ := addExtraLabels_amended
  exact ⟨h3 _ _ (by decide), h4 _ _, h5 _ _ (by decide) (by decide)⟩

/-! ## Push configuration validation (src/config.go, src/push.go) (C9) -/

/-- The components of a parsed URL inspected by the validation logic
(`net/url.URL`). -/
structure URLParts where
  scheme : String
  host : String
deriving DecidableEq, Repr

/-- `parseURL` (src/config.go:134-149).  `net/url.Parse` belongs to the
Go standard library (an external collaborator), so it enters the model as
the parameter `parse` (`none` models a parse error). -/
def parseURL (parse : String → Option URLParts) (u : String) : Except String URLParts :=
  if u = "" then .error "url cannot br empty"
  else
    match parse u with
    | none => .error "cannot parse url"
    | some pu =>
      if pu.scheme ≠ "http" ∧ pu.scheme ≠ "https" then .error "unsupported scheme"
      else if pu.host = "" then .error "missing host"
      else .ok pu

/-- `PushConfig` (src/config.go:17-30); `Interval` is a `time.Duration`
(an `int64` nanosecond count). -/
structure PushConfig where
  PushURL : String
  Interval : Int
  ExtraLabels : String
deriving DecidableEq, Repr

/-- `PushConfig.Validate` (src/config.go:34-48): non-positive interval,
invalid extra labels, then `parseURL`; the function body contains no
panic, which the model reflects by being total. -/
def PushConfig.Validate (parse : String → Option URLParts) (pc : PushConfig) : Option String :=
  if pc.Interval ≤ 0 then some "interval must be positive"
  else if !validateTags pc.ExtraLabels then some "invalid ExtraLabels"
  else
    match parseURL parse pc.PushURL with
    | .error e => some e
    | .ok _ => none

/-- The validation done by `InitPushExt` (src/push.go:167-196): the same
checks, except the URL goes straight to `url.Parse` with no emptiness
test; every path after validation returns `nil`, so the model returns
`none` exactly when validation passes.  No panic is reachable. -/
def InitPushExtValidate (parse : String → Option URLParts) (pushURL : String)
    (interval : Int) (extraLabels : String) : Option String :=
  if interval ≤ 0 then some "interval must be positive"
  else if !validateTags extraLabels then some "invalid extraLabels"
  else
    match parse pushURL with
    | none => some "cannot parse pushURL"
    | some pu =>
      if pu.scheme ≠ "http" ∧ pu.scheme ≠ "https" then some "unsupported scheme"
      else if pu.host = "" then some "missing host"
      else none

/-- C9. `PushConfig.Validate` returns an error exactly when the interval
is non-positive, the extra-labels string is invalid, or the URL is empty,
unparsable, of a scheme other than http/https, or host-less; the
`InitPushExt` entry point does the same (its empty-URL case falls under
the scheme check, since `url.Parse("")` yields an empty scheme); both are
total (never panic). -/
theorem pushConfig_validate_iff (parse : String → Option URLParts) (pc : PushConfig) :
    ((pc.Validate parse).isSome = true ↔
      (pc.Interval ≤ 0 ∨ validateTags pc.ExtraLabels = false ∨ pc.PushURL = "" ∨
        parse pc.PushURL = none ∨
        (∃ pu, parse pc.PushURL = some pu ∧
          ((pu.scheme ≠ "http" ∧ pu.scheme ≠ "https") ∨ pu.host = "")))) ∧
    ((InitPushExtValidate parse pc.PushURL pc.Interval pc.ExtraLabels).isSome = true ↔
      (pc.Interval ≤ 0 ∨ validateTags pc.ExtraLabels = false ∨
        parse pc.PushURL = none ∨
        (∃ pu, parse pc.PushURL = some pu ∧
          ((pu.scheme ≠ "http" ∧ pu.scheme ≠ "https") ∨ pu.host = "")))) ∧
    (parse "" = some ⟨"", ""⟩ → pc.PushURL = "" →
      (InitPushExtValidate parse pc.PushURL pc.Interval pc.ExtraLabels).isSome = true) := by
  refine ⟨?_, ?_, ?_⟩
  · by_cases hi : pc.Interval ≤ 0
    · simp [PushConfig.Validate, hi]
    · by_cases ht : validateTags pc.ExtraLabels = true
      · by_cases hu : pc.PushURL = ""
        · simp [PushConfig.Validate, parseURL, hi, ht, hu]
        · cases hp : parse pc.PushURL with
          | none => simp [PushConfig.Validate, parseURL, hi, ht, hu, hp]
          | some pu =>
            by_cases hs : pu.scheme ≠ "http" ∧ pu.scheme ≠ "https"
            · simp [PushConfig.Validate, parseURL, hi, ht, hu, hp, hs]
            · by_cases hh : pu.host = ""
              · simp [PushConfig.Validate, parseURL, hi, ht, hu, hp, hs, hh]
              · simp [PushConfig.Validate, parseURL, hi, ht, hu, hp, hs, hh]
      · simp only [Bool.not_eq_true] at ht
        simp [PushConfig.Validate, hi, ht]
  · by_cases hi : pc.Interval ≤ 0
    · simp [InitPushExtValidate, hi]
    · by_cases ht : validateTags pc.ExtraLabels = true
      · cases hp : parse pc.PushURL with
        | none => simp [InitPushExtValidate, hi, ht, hp]
        | some pu =>
          by_cases hs : pu.scheme ≠ "http" ∧ pu.scheme ≠ "https"
          · simp [InitPushExtValidate, hi, ht, hp, hs]
          · by_cases hh : pu.host = ""
            · simp [InitPushExtValidate, hi, ht, hp, hs, hh]
            · simp [InitPushExtValidate, hi, ht, hp, hs, hh]
      · simp only [Bool.not_eq_true] at ht
        simp [InitPushExtValidate, hi, ht]
  · intro hp hurl
    by_cases hi : pc.Interval ≤ 0
    · simp [InitPushExtValidate, hi]
    · by_cases ht : validateTags pc.ExtraLabels = true
      · rw [hurl]
        simp [InitPushExtValidate, hi, ht, hp]
      · simp only [Bool.not_eq_true] at ht
        simp [InitPushExtValidate, hi, ht]

/-- Closed witness for `pushConfig_validate_iff`: an empty URL makes
`InitPushExt` fail (via the scheme check). -/
theorem pushConfig_validate_iff_witness :
    (InitPushExtValidate (fun _ => some ⟨"", ""⟩) "" 1 "").isSome = true := by
  have h := (pushConfig_validate_iff (fun _ => some ⟨"", ""⟩) (PushConfig.mk "" 1 "")).2.2
  exact h rfl rfl
